import Mathlib

/-!
Verification of the box2epub pipeline (src/main.rs, src/extractor.rs,
src/extractor/boxn.rs).

The development shallowly embeds:
* the four concrete regular expressions of the source (`HOME_TITLE_REGEX`,
  `HOME_AUTHOR_REGEX`, `HOME_IMAGE_REGEX` and the interpolated chapter-URL
  pattern) via a small fuel-based backtracking matcher with leftmost-first
  semantics and lazy/greedy dot quantifiers, exactly the constructs those
  patterns use;
* the `scraper`-based chapter extraction over an abstract parsed-HTML tree
  (the HTML5 parser itself is an external collaborator, so parsed documents
  are taken as input);
* the `futures::stream::buffered(K)` bounded-concurrency pipeline of
  `main` as a queue simulation with a completely unconstrained completion
  order;
* `main`'s control flow (argument handling, overview scraping, cover
  handling, sequential collection of chapter results, epub assembly) as an
  `Except`-valued function, where every `unwrap`/`expect` panic and every
  error propagated with the question-mark operator becomes an error value.
-/

/-! ## A tiny regex AST: exactly the constructs used by the source patterns

The source patterns use only: literal runs, `.` (optionally with
`dot_matches_new_line`), lazy `.+?` and `.*?`, one greedy `.*`, and a single
capture group.  Matching is backtracking, leftmost-first, like the regex
crate's semantics for these patterns.
-/

inductive RItem : Type where
  | lit (s : List Char)
  /-- a single `.`; the flag is `dot_matches_new_line` -/
  | dot (dotall : Bool)
  /-- `.*?` when `lazy` is true, `.*` otherwise; the second flag is dotall -/
  | star (lazy : Bool) (dotall : Bool)
  /-- `.+?` when `lazy` is true, `.+` otherwise; the second flag is dotall -/
  | plus (lazy : Bool) (dotall : Bool)
  | openG
  | closeG
deriving DecidableEq

/-- Whether `.` accepts character `c` (it rejects a newline unless dotall). -/
def dotOk (dotall : Bool) (c : Char) : Bool :=
  dotall || c != '\n'

/-- Backtracking matcher.  `mGo fuel its s g cap` tries to match the item
list `its` against a prefix of `s`; `g` says whether we are inside the
capture group and `cap` is the reversed capture accumulated so far.  On
success it returns the captured text and the remainder of the input after
the match.  Priorities: a lazy star first tries to match the rest of the
pattern here, a greedy star first tries to consume a character.  The fuel
only needs to exceed `s.length + its.length` (each call shrinks that
measure), see `mGo_fuel_agree`. -/
def mGo : Nat → List RItem → List Char → Bool → List Char →
    Option (List Char × List Char)
  | 0, _, _, _, _ => none
  | _+1, [], s, _, cap => some (cap.reverse, s)
  | fuel+1, .openG :: rest, s, _, cap => mGo fuel rest s true cap
  | fuel+1, .closeG :: rest, s, _, cap => mGo fuel rest s false cap
  | fuel+1, .lit l :: rest, s, g, cap =>
    if l.isPrefixOf s then
      mGo fuel rest (s.drop l.length) g (if g then l.reverse ++ cap else cap)
    else none
  | fuel+1, .dot da :: rest, s, g, cap =>
    match s with
    | [] => none
    | c :: s' =>
      if dotOk da c then mGo fuel rest s' g (if g then c :: cap else cap)
      else none
  | fuel+1, .plus lz da :: rest, s, g, cap =>
    match s with
    | [] => none
    | c :: s' =>
      if dotOk da c then
        mGo fuel (.star lz da :: rest) s' g (if g then c :: cap else cap)
      else none
  | fuel+1, .star lz da :: rest, s, g, cap =>
    if lz then
      match mGo fuel rest s g cap with
      | some r => some r
      | none =>
        match s with
        | [] => none
        | c :: s' =>
          if dotOk da c then
            mGo fuel (.star lz da :: rest) s' g (if g then c :: cap else cap)
          else none
    else
      match
        (match s with
         | [] => none
         | c :: s' =>
           if dotOk da c then
             mGo fuel (.star lz da :: rest) s' g (if g then c :: cap else cap)
           else none) with
      | some r => some r
      | none => mGo fuel rest s g cap

/-- Leftmost search: try a match starting at each position in turn. -/
def mSearch : Nat → List RItem → List Char → Option (List Char × List Char)
  | 0, _, _ => none
  | fuel+1, its, s =>
    match mGo (s.length + its.length + 1) its s false [] with
    | some r => some r
    | none =>
      match s with
      | [] => none
      | _ :: s' => mSearch fuel its s'

/-- Successive non-overlapping leftmost matches, as `captures_iter` yields
them.  The guard `rest.length < s.length` keeps the recursion well-founded;
for the source's patterns every match consumes at least one character, so
the guard never cuts anything off. -/
def capturesIter : Nat → List RItem → List Char → List (List Char)
  | 0, _, _ => []
  | fuel+1, its, s =>
    match mSearch (s.length + 1) its s with
    | none => []
    | some (cap, rest) =>
      cap :: (if rest.length < s.length then capturesIter fuel its rest else [])

/-- `Regex::captures(s)` restricted to group 1 (each source pattern has one
group, and the group always participates in a match). -/
def regexCaptures (its : List RItem) (s : List Char) : Option (List Char) :=
  (mSearch (s.length + 1) its s).map Prod.fst

/-- `Regex::captures_iter(s)`, group 1 of each match. -/
def regexCapturesIter (its : List RItem) (s : List Char) : List (List Char) :=
  capturesIter (s.length + 1) its s

/-! ## The four concrete patterns of the source -/

/-- `HOME_TITLE_REGEX` (boxn.rs:9, main.rs:20):
pattern `<ol class="breadcrumb">.*<li>.*?<a.*?>(.+?)</a>.*?</li>.*?</ol>`
with `dot_matches_new_line(true)`. -/
def homeTitleItems : List RItem :=
  [.lit "<ol class=\"breadcrumb\">".toList, .star false true,
   .lit "<li>".toList, .star true true, .lit "<a".toList, .star true true,
   .lit ">".toList, .openG, .plus true true, .closeG, .lit "</a>".toList,
   .star true true, .lit "</li>".toList, .star true true, .lit "</ol>".toList]

/-- `HOME_AUTHOR_REGEX` (boxn.rs:14, main.rs:25):
pattern `<div.+?class="author-content".*?>.*?<a.*?>(.+?)</a>`, dotall. -/
def homeAuthorItems : List RItem :=
  [.lit "<div".toList, .plus true true, .lit "class=\"author-content\"".toList,
   .star true true, .lit ">".toList, .star true true, .lit "<a".toList,
   .star true true, .lit ">".toList, .openG, .plus true true, .closeG,
   .lit "</a>".toList]

/-- `HOME_IMAGE_REGEX` (boxn.rs:19, main.rs:30):
pattern `<div.+?class="summary_image">.*?src="(.+?)".*?</div>`, dotall. -/
def homeImageItems : List RItem :=
  [.lit "<div".toList, .plus true true, .lit "class=\"summary_image\">".toList,
   .star true true, .lit "src=\"".toList, .openG, .plus true true, .closeG,
   .lit "\"".toList, .star true true, .lit "</div>".toList]

/-- The site string is spliced verbatim into the chapter-URL pattern
(`format!`), so its characters are interpreted as regex syntax.  We compile
`.` to a wildcard and every other character to a literal; this is faithful
exactly for site strings free of the remaining metacharacters (see
`SiteModeled`). -/
def compileSite (site : List Char) : List RItem :=
  site.map (fun c => if c = '.' then RItem.dot false else RItem.lit [c])

/-- The chapter-URL regex (boxn.rs:59, main.rs:134):
`Regex::new(&format!(r#"<a.+?href="({}.+?)".*?>"#, site))`, not dotall. -/
def chapterUrlItems (site : List Char) : List RItem :=
  [.lit "<a".toList, .plus true false, .lit "href=\"".toList, .openG] ++
    compileSite site ++
    [.plus true false, .closeG, .lit "\"".toList, .star true false,
     .lit ">".toList]

/-- Regex metacharacters other than `.`.  `compileSite` (hence the whole
chapter-URL model) is only faithful to the source when the site string
avoids them. -/
def regexMetaNonDot : List Char :=
  "^$*+?()[]\x7b\x7d|\\".toList

/-- Site strings on which our compilation of the interpolated pattern
matches the regex crate's reading of it. -/
def SiteModeled (site : String) : Prop :=
  ∀ c ∈ site.toList, c ∉ regexMetaNonDot

/-- Site strings that the chapter-URL pattern treats fully literally
(no `.` either). -/
def SiteLiteralOk (site : String) : Prop :=
  ∀ c ∈ site.toList, c ∉ ('.' :: regexMetaNonDot)

instance (site : String) : Decidable (SiteModeled site) := by
  unfold SiteModeled
  infer_instance

instance (site : String) : Decidable (SiteLiteralOk site) := by
  unfold SiteLiteralOk
  infer_instance

/-! ## Rust's `str::trim`, modeled on character lists (ASCII whitespace) -/

/-- `str::trim`: strip whitespace from both ends. -/
def trimChars (l : List Char) : List Char :=
  ((l.dropWhile Char.isWhitespace).reverse.dropWhile Char.isWhitespace).reverse

/-! ## `BoxnExtractor::extract_overview` (boxn.rs:43-74) -/

/-- `extractor::Overview` (extractor.rs:8-13). -/
structure Overview where
  title : String
  author : String
  img_url : Option String
  download_urls : List String
deriving DecidableEq

/-- `BoxnExtractor::extract_overview` (boxn.rs:43-74): regex scrapes with
literal fallbacks for title and author, optional image URL, and the
chapter-URL captures collected in document order and then reversed
(boxn.rs:66). -/
def extract_overview (site : String) (html : String) : Overview :=
  let h := html.toList
  { title := String.mk (trimChars ((regexCaptures homeTitleItems h).getD
      "no_title".toList))
    author := String.mk (trimChars ((regexCaptures homeAuthorItems h).getD
      "no_author".toList))
    img_url := (regexCaptures homeImageItems h).map
      (fun c => String.mk (trimChars c))
    download_urls :=
      ((regexCapturesIter (chapterUrlItems site.toList) h).map String.mk).reverse }

/-! ## The `scraper` document model and `extract_chapter`

`scraper::Html::parse_document` is an external HTML5 parser; we model its
output as a tree of element and text nodes.  The two selectors the source
uses (`title` and `div.text-left`, boxn.rs:25-26 and main.rs:64-65) are
embedded directly. -/

/-- A parsed HTML node: an element with tag, attributes and children, or a
text node. -/
inductive Node : Type where
  | elem (tag : String) (attrs : List (String × String)) (children : List Node)
  | text (s : String)

/-- Split a character list at a separator character. -/
def splitOnChar (sep : Char) : List Char → List (List Char)
  | [] => [[]]
  | c :: rest =>
    if c = sep then [] :: splitOnChar sep rest
    else
      match splitOnChar sep rest with
      | [] => [[c]]
      | g :: gs => (c :: g) :: gs

/-- The classes of an element: its `class` attribute split on spaces. -/
def nodeClasses (attrs : List (String × String)) : List String :=
  (splitOnChar ' ' (((attrs.lookup "class").getD "").toList)).map String.mk

/-- The two structural selectors used by the source. -/
inductive Sel : Type where
  | title
  | textLeftDiv
deriving DecidableEq

/-- Whether a node is an element matched by the selector. -/
def selMatches : Sel → Node → Bool
  | .title, .elem tag _ _ => tag == "title"
  | .textLeftDiv, .elem tag attrs _ =>
      tag == "div" && (nodeClasses attrs).contains "text-left"
  | _, .text _ => false

mutual

/-- All nodes of a tree in document (depth-first, preorder) order. -/
def allNodes : Node → List Node
  | .text s => [.text s]
  | .elem tag attrs children => .elem tag attrs children :: allNodesList children
termination_by structural n => n

/-- All nodes of a forest in document order. -/
def allNodesList : List Node → List Node
  | [] => []
  | n :: rest => allNodes n ++ allNodesList rest
termination_by structural l => l

end

/-- `document.select(sel).next()`: the first matching element in document
order. -/
def selectFirst (sel : Sel) (doc : List Node) : Option Node :=
  (allNodesList doc).find? (selMatches sel)

/-- `ElementRef::text().collect()`: concatenation of all descendant text,
in document order. -/
def elemText (n : Node) : String :=
  String.join ((allNodes n).filterMap (fun m =>
    match m with
    | .text s => some s
    | .elem _ _ _ => none))

/-- Serialize an attribute list. -/
def attrsHtml (attrs : List (String × String)) : String :=
  String.join (attrs.map (fun a => " " ++ a.1 ++ "=\"" ++ a.2 ++ "\""))

mutual

/-- Serialize one node back to markup. -/
def nodeHtml : Node → String
  | .text s => s
  | .elem tag attrs children =>
      "<" ++ tag ++ attrsHtml attrs ++ ">" ++ nodesHtml children ++
        "</" ++ tag ++ ">"
termination_by structural n => n

/-- Serialize a forest. -/
def nodesHtml : List Node → String
  | [] => ""
  | n :: rest => nodeHtml n ++ nodesHtml rest
termination_by structural l => l

end

/-- `ElementRef::inner_html()`: the serialized children of an element. -/
def innerHtml : Node → String
  | .elem _ _ children => nodesHtml children
  | .text s => s

/-- `extractor::Chapter` (extractor.rs:16-19) / the `Chapter` struct of
main.rs:68-71. -/
structure Chapter where
  title : String
  content : String
deriving DecidableEq

/-- The two `expect` panics of `extract_chapter` (boxn.rs:81, boxn.rs:87;
identically main.rs:78, main.rs:84), modeled as error values. -/
inductive ExtractErr : Type where
  | missingTitle
  | missingContent
deriving DecidableEq

/-- The fixed xhtml shell `extract_chapter` wraps the content in
(boxn.rs:89-100, main.rs:86-97). -/
def chapterShell (title body : String) : String :=
  "<html xmlns=\"http://www.w3.org/1999/xhtml\" xmlns:epub=\"http://www.idpf.org/2007/ops\">\n    <head>\n        <title>" ++
    title ++ "</title>\n    </head>\n    <body>\n        " ++ body ++
    "\n    </body>\n</html>"

/-- `extract_chapter` (boxn.rs:76-103, and the identical copy at
main.rs:73-100).  The source panics via `expect` when a selector finds
nothing; being fallible, it is embedded as an `Except`. -/
def extract_chapter (doc : List Node) : Except ExtractErr Chapter :=
  match selectFirst .title doc with
  | none => .error .missingTitle
  | some titleElem =>
    let title := elemText titleElem
    match selectFirst .textLeftDiv doc with
    | none => .error .missingContent
    | some contentElem =>
      .ok { title := title, content := chapterShell title (innerHtml contentElem) }

/-! ## The bounded-concurrency fetch pipeline (main.rs:141-149, 174-196)

`main` builds `stream::iter(chapter_urls.iter().rev().map(tokio::spawn))`
and applies `.buffered(min(MAX_PARALLEL, num_cpus))`.  `buffered(K)` keeps
at most `K` spawned futures in flight in a FIFO of submission order, lets
them complete in any order, and yields each result only once every
earlier-submitted future has been yielded.  We simulate it as a state
machine: `inflight` is the FIFO of submitted indices with a completion
flag; an adversarial choice sequence decides which in-flight download
finishes next; finished entries are emitted only from the front; the
buffer is refilled to `K` from the remaining indices. -/

structure SchedState where
  /-- next index to submit (position in the reversed URL list) -/
  next : Nat
  /-- submitted-but-not-yet-yielded downloads, oldest first, with a
  completion flag -/
  inflight : List (Nat × Bool)
  /-- indices already yielded downstream, in yield order -/
  out : List Nat
deriving DecidableEq

/-- Submit further downloads until `K` are in flight or all `N` have been
submitted. -/
def fill (N K : Nat) (s : SchedState) : SchedState :=
  let m := min (K - s.inflight.length) (N - s.next)
  { next := s.next + m
    inflight := s.inflight ++ (List.range' s.next m).map (fun i => (i, false))
    out := s.out }

/-- Pop completed downloads off the front of the FIFO: the yielded indices
and the remaining queue. -/
def drainQ : List (Nat × Bool) → List Nat × List (Nat × Bool)
  | [] => ([], [])
  | (i, d) :: rest =>
    if d then
      let (emitted, rem) := drainQ rest
      (i :: emitted, rem)
    else ([], (i, d) :: rest)

/-- Yield every completed download at the front of the queue. -/
def drain (s : SchedState) : SchedState :=
  { next := s.next
    inflight := (drainQ s.inflight).2
    out := s.out ++ (drainQ s.inflight).1 }

/-- Mark the `j`-th incomplete entry of the queue as completed. -/
def markNth : Nat → List (Nat × Bool) → List (Nat × Bool)
  | _, [] => []
  | j, (i, true) :: rest => (i, true) :: markNth j rest
  | 0, (i, false) :: rest => (i, true) :: rest
  | j+1, (i, false) :: rest => (i, false) :: markNth j rest

/-- Number of in-flight downloads that have not yet completed. -/
def numIncomplete (l : List (Nat × Bool)) : Nat :=
  (l.filter (fun p => !p.2)).length

/-- One adversarial completion: the choice `c` picks (modulo the number of
candidates) which in-flight download finishes. -/
def completeOne (c : Nat) (s : SchedState) : SchedState :=
  let m := numIncomplete s.inflight
  if m = 0 then s
  else { s with inflight := markNth (c % m) s.inflight }

/-- One scheduler step: some download completes, the stream yields every
front-of-queue result that is ready, and the buffer is refilled. -/
def schedStep (N K : Nat) (c : Nat) (s : SchedState) : SchedState :=
  fill N K (drain (completeOne c s))

/-- Initial state: the first `min K N` downloads are in flight. -/
def schedInit (N K : Nat) : SchedState :=
  fill N K { next := 0, inflight := [], out := [] }

/-- Run the pipeline under a completion schedule. -/
def schedRun (N K : Nat) (choices : List Nat) : SchedState :=
  choices.foldl (fun s c => schedStep N K c s) (schedInit N K)

/-! ## The run model of `main` (main.rs:102-202)

Collaborators (HTTP client, HTML5 parser, the `npx prettier` subprocess)
are supplied through an environment.  Every `expect`/`unwrap` panic and
every error propagated by the question-mark operator becomes a `RunErr`;
`output.epub` is written only when the whole run returns `Except.ok`
(main.rs:198-199 run after everything else). -/

/-- How a run can die: a panic from `expect`/`unwrap`, or an error
propagated out of `main` with the question-mark operator. -/
inductive RunErr : Type where
  | panicked (msg : String)
  | propagated
deriving DecidableEq

/-- One chapter as handed to the `EpubBuilder` (main.rs:180-192). -/
structure EpubChapter where
  /-- the generated identifier, `c{index}.xhtml` -/
  file : String
  title : String
  /-- the sanitized body bytes -/
  body : String
  /-- the first chapter gets `ReferenceType::Text` (main.rs:185) -/
  isFirstRef : Bool
deriving DecidableEq

/-- The packaged document, as the sequence of `EpubBuilder` calls made by
 `main`. -/
structure Epub where
  metadata : List (String × String)
  /-- cover file name and mimetype, when one was embedded -/
  cover : Option (String × String)
  hasInlineToc : Bool
  contents : List EpubChapter
deriving DecidableEq

/-- The response to the cover-image request (main.rs:155-161). -/
structure CoverResp where
  /-- the `Content-Type` header, when present and readable -/
  contentType : Option String
  /-- `resp.bytes()`, which is itself fallible (`?` at main.rs:161) -/
  bodyBytes : Except Unit (List Nat)

/-- The collaborators and inputs of one run. -/
structure Env where
  /-- `std::env::args()`: element 0 is the program name -/
  args : List String
  /-- fetching the index page: `send()?.text()?` collapsed -/
  homeText : Except Unit String
  /-- fetching one chapter page by URL, inside the spawned task -/
  chapterText : String → Except Unit String
  /-- `scraper::Html::parse_document`, an external error-recovering parser -/
  parseDoc : String → List Node
  /-- fetching the cover image -/
  coverResp : Except Unit CoverResp
  /-- the `npx prettier --parser html` transform (main.rs:45-57) -/
  prettier : String → String

/-- `str::replace` (non-overlapping, left to right), on character lists
with the scan length as structural fuel. -/
def replaceAll (pat rep : List Char) : Nat → List Char → List Char
  | 0, s => s
  | fuel+1, s =>
    if pat ≠ [] ∧ pat.isPrefixOf s then
      rep ++ replaceAll pat rep fuel (s.drop pat.length)
    else
      match s with
      | [] => []
      | c :: s' => c :: replaceAll pat rep fuel s'

/-- `sanitize_html` (main.rs:42-60): pipe through prettier, then replace
every `&nbsp;` with `&#160;`. -/
def sanitize_html (env : Env) (html : String) : String :=
  let pretty := (env.prettier html).toList
  String.mk (replaceAll "&nbsp;".toList "&#160;".toList pretty.length pretty)

/-- The trailing-slash normalization of the base URL (main.rs:104-118):
panics (via `expect`) when the argument is empty, otherwise appends `/`
unless one is already there. -/
def normalizeSite (raw : String) : Except RunErr String :=
  match raw.toList.getLast? with
  | none => .error (.panicked "Argument should at least have one character")
  | some c => .ok (if c = '/' then raw else raw ++ "/")

/-- Obtain and normalize the site argument (main.rs:105-118): `nth(1)`
panics when absent, then `normalizeSite`. -/
def getSite (args : List String) : Except RunErr String :=
  match args.get? 1 with
  | none => .error (.panicked "One argument to be provided")
  | some raw => normalizeSite raw

/-- Process one delivered chapter download (the body of the `for_each`,
main.rs:176-194): `unwrap` the fetch result (panics on a network error),
extract, sanitize, and build the `EpubContent`. -/
def processChapter (env : Env) (i : Nat) (res : Except Unit String) :
    Except RunErr EpubChapter :=
  match res with
  | .error _ => .error (.panicked "called Result::unwrap() on an Err value")
  | .ok html =>
    match extract_chapter (env.parseDoc html) with
    | .error .missingTitle => .error (.panicked "No <title> found")
    | .error .missingContent => .error (.panicked "No chapter content found")
    | .ok ch =>
      .ok { file := "c" ++ toString i ++ ".xhtml"
            title := ch.title
            body := sanitize_html env ch.content
            isFirstRef := i == 0 }

/-- Collect the chapter results in delivery order, which by
`schedRun`/`buffered` is submission order (see the ordered-collector
theorems): index `i` is the enumeration counter of main.rs:175. -/
def processChaptersFrom (env : Env) : Nat → List String →
    Except RunErr (List EpubChapter)
  | _, [] => .ok []
  | i, u :: rest =>
    match processChapter env i (env.chapterText u) with
    | .error e => .error e
    | .ok c =>
      match processChaptersFrom env (i+1) rest with
      | .error e => .error e
      | .ok cs => .ok (c :: cs)

/-- The cover-image block (main.rs:154-170): fetch (`?` aborts the run on
a network error), read the mimetype header, fetch the bytes (`?` again),
then embed only `image/png` or `image/jpeg`; anything else is only logged.
Returns the embedded cover, if any, and the log lines printed. -/
def buildCover (env : Env) (imgOpt : Option String) :
    Except RunErr (Option (String × String) × List String) :=
  match imgOpt with
  | none => .ok (none, [])
  | some _ =>
    match env.coverResp with
    | .error _ => .error .propagated
    | .ok resp =>
      match resp.contentType with
      | none => .ok (none, [])
      | some mt =>
        match resp.bodyBytes with
        | .error _ => .error .propagated
        | .ok _ =>
          if mt = "image/png" then .ok (some ("cover.png", mt), [])
          else if mt = "image/jpeg" then .ok (some ("cover.jpg", mt), [])
          else .ok (none, ["Cover photo mimetype not supported: " ++ mt])

/-- The whole of `main` (main.rs:102-202).  On success it returns the
packaged document (which the source then writes to `output.epub`) together
with the warnings printed; on error nothing is written. -/
def runMain (env : Env) : Except RunErr (Epub × List String) :=
  match getSite env.args with
  | .error e => .error e
  | .ok site =>
    match env.homeText with
    | .error _ => .error .propagated
    | .ok homeHtml =>
      let h := homeHtml.toList
      let title := String.mk (trimChars
        ((regexCaptures homeTitleItems h).getD "box2epub".toList))
      let author := String.mk (trimChars
        ((regexCaptures homeAuthorItems h).getD "box2epub".toList))
      let imgOpt := (regexCaptures homeImageItems h).map
        (fun c => String.mk (trimChars c))
      let chapterUrls := (regexCapturesIter (chapterUrlItems site.toList) h).map
        String.mk
      match buildCover env imgOpt with
      | .error e => .error e
      | .ok (cover, logs) =>
        match processChaptersFrom env 0 chapterUrls.reverse with
        | .error e => .error e
        | .ok chs =>
          .ok ({ metadata := [("author", author), ("title", title)]
                 cover := cover
                 hasInlineToc := true
                 contents := chs }, logs)

/-! ## Ordered delivery of the buffered pipeline -/

/-- Completed in-flight downloads (yielded results still sitting in the
buffer). -/
def countDone (l : List (Nat × Bool)) : Nat :=
  (l.filter (fun p => p.2)).length

/-- Downloads that have finished, whether already yielded or still
buffered. -/
def doneCount (s : SchedState) : Nat :=
  s.out.length + countDone s.inflight

/-- The state invariant of the buffered pipeline: yielded results followed
by the queue are exactly the submitted indices in submission order, the
queue respects the concurrency cap and is kept full while URLs remain, and
the front of the queue is never a completed-but-unyielded download. -/
def SchedInv (N K : Nat) (s : SchedState) : Prop :=
  s.out ++ s.inflight.map Prod.fst = List.range s.next ∧
  s.next ≤ N ∧
  s.inflight.length ≤ K ∧
  (s.inflight.length = K ∨ s.next = N) ∧
  (∀ i b, s.inflight.head? = some (i, b) → b = false)

theorem markNth_map_fst (j : Nat) (l : List (Nat × Bool)) :
    (markNth j l).map Prod.fst = l.map Prod.fst := by
  induction l generalizing j with
  | nil => simp [markNth]
  | cons p rest ih =>
    obtain ⟨i, b⟩ := p
    cases b with
    | true => simpa [markNth] using ih j
    | false =>
      cases j with
      | zero => simp [markNth]
      | succ j' => simpa [markNth] using ih j'

theorem markNth_length (j : Nat) (l : List (Nat × Bool)) :
    (markNth j l).length = l.length := by
  have := markNth_map_fst j l
  simpa using congrArg List.length this

theorem numIncomplete_cons_done (i : Nat) (l : List (Nat × Bool)) :
    numIncomplete ((i, true) :: l) = numIncomplete l := by
  simp [numIncomplete]

theorem countDone_markNth (j : Nat) (l : List (Nat × Bool))
    (h : j < numIncomplete l) :
    countDone (markNth j l) = countDone l + 1 := by
  induction l generalizing j with
  | nil => simp [numIncomplete] at h
  | cons p rest ih =>
    obtain ⟨i, b⟩ := p
    cases b with
    | true =>
      rw [numIncomplete_cons_done] at h
      simpa [markNth, countDone] using ih j h
    | false =>
      cases j with
      | zero => simp [markNth, countDone]
      | succ j' =>
        have h' : j' < numIncomplete rest := by
          simpa [numIncomplete] using h
        simpa [markNth, countDone] using ih j' h'

theorem drainQ_map_fst (l : List (Nat × Bool)) :
    (drainQ l).1 ++ (drainQ l).2.map Prod.fst = l.map Prod.fst := by
  induction l with
  | nil => simp [drainQ]
  | cons p rest ih =>
    obtain ⟨i, b⟩ := p
    cases b with
    | true => simpa [drainQ] using ih
    | false => simp [drainQ]

theorem drainQ_countDone (l : List (Nat × Bool)) :
    (drainQ l).1.length + countDone (drainQ l).2 = countDone l := by
  induction l with
  | nil => simp [drainQ, countDone]
  | cons p rest ih =>
    obtain ⟨i, b⟩ := p
    cases b with
    | true =>
      simp [drainQ, countDone] at ih ⊢
      omega
    | false => simp [drainQ]

theorem drainQ_head (l : List (Nat × Bool)) (i : Nat) (b : Bool)
    (h : (drainQ l).2.head? = some (i, b)) : b = false := by
  induction l with
  | nil => simp [drainQ] at h
  | cons p rest ih =>
    obtain ⟨j, c⟩ := p
    cases c with
    | true =>
      apply ih
      simpa [drainQ] using h
    | false =>
      simp [drainQ] at h
      exact h.2

theorem drainQ_length (l : List (Nat × Bool)) :
    (drainQ l).2.length ≤ l.length := by
  induction l with
  | nil => simp [drainQ]
  | cons p rest ih =>
    obtain ⟨j, c⟩ := p
    cases c with
    | true =>
      simp only [drainQ]
      exact Nat.le_succ_of_le ih
    | false => simp [drainQ]

theorem countDone_append_fresh (l : List (Nat × Bool)) (xs : List Nat) :
    countDone (l ++ xs.map (fun i => (i, false))) = countDone l := by
  induction xs with
  | nil => simp
  | cons x rest ih =>
    simp only [countDone, List.filter_append] at *
    simp [List.filter_map]

theorem numIncomplete_eq_zero (l : List (Nat × Bool))
    (h : numIncomplete l = 0) : countDone l = l.length := by
  induction l with
  | nil => simp [countDone]
  | cons p rest ih =>
    obtain ⟨i, b⟩ := p
    cases b with
    | true =>
      rw [numIncomplete_cons_done] at h
      simpa [countDone] using ih h
    | false => simp [numIncomplete] at h

theorem countDone_le_length (l : List (Nat × Bool)) :
    countDone l ≤ l.length :=
  List.length_filter_le _ l

theorem head_fresh_append (l : List (Nat × Bool)) (xs : List Nat)
    (h : ∀ i b, l.head? = some (i, b) → b = false) :
    ∀ i b, (l ++ xs.map (fun i => (i, false))).head? = some (i, b) → b = false := by
  intro i b hb
  cases l with
  | cons p rest =>
    obtain ⟨j, c⟩ := p
    have : c = false := h j c rfl
    simp only [List.cons_append, List.head?_cons, Option.some.injEq] at hb
    have hb2 := congrArg Prod.snd hb
    simpa [this] using hb2.symm
  | nil =>
    cases xs with
    | nil => simp at hb
    | cons x rest =>
      simp only [List.nil_append, List.map_cons, List.head?_cons,
        Option.some.injEq] at hb
      have hb2 := congrArg Prod.snd hb
      simpa using hb2.symm

/-- `fill` preserves the invariant pieces and re-establishes fullness,
provided the queue head (if any) is incomplete and the lengths are in
range. -/
theorem fill_inv (N K : Nat) (s : SchedState)
    (h1 : s.out ++ s.inflight.map Prod.fst = List.range s.next)
    (h2 : s.next ≤ N) (h3 : s.inflight.length ≤ K)
    (h5 : ∀ i b, s.inflight.head? = some (i, b) → b = false) :
    SchedInv N K (fill N K s) ∧ doneCount (fill N K s) = doneCount s := by
  set m := min (K - s.inflight.length) (N - s.next) with hm
  have hmN : s.next + m ≤ N := by omega
  refine ⟨⟨?_, hmN, ?_, ?_, ?_⟩, ?_⟩
  · show s.out ++ (s.inflight ++ (List.range' s.next m).map (fun i => (i, false))).map Prod.fst
        = List.range (s.next + m)
    rw [List.map_append, List.map_map]
    have : (Prod.fst ∘ fun i => ((i : Nat), false)) = id := rfl
    rw [this, List.map_id, ← List.append_assoc, h1]
    rw [List.range_eq_range', List.range_eq_range']
    have := List.range'_append 0 s.next m 1
    simpa [Nat.add_comm] using this
  · show (s.inflight ++ (List.range' s.next m).map (fun i => (i, false))).length ≤ K
    simp only [List.length_append, List.length_map, List.length_range']
    omega
  · show (s.inflight ++ (List.range' s.next m).map (fun i => (i, false))).length = K ∨
        s.next + m = N
    simp only [List.length_append, List.length_map, List.length_range']
    omega
  · exact fun i b hb => head_fresh_append s.inflight _ h5 i b hb
  · show s.out.length + countDone (s.inflight ++ (List.range' s.next m).map (fun i => (i, false)))
        = doneCount s
    rw [countDone_append_fresh]
    rfl

theorem countDone_add_numIncomplete (l : List (Nat × Bool)) :
    countDone l + numIncomplete l = l.length := by
  induction l with
  | nil => simp [countDone, numIncomplete]
  | cons p rest ih =>
    obtain ⟨i, b⟩ := p
    cases b with
    | true =>
      simp [countDone, numIncomplete] at ih ⊢
      omega
    | false =>
      simp [countDone, numIncomplete] at ih ⊢
      omega

theorem numIncomplete_pos_of_head (i : Nat) (rest : List (Nat × Bool)) :
    0 < numIncomplete ((i, false) :: rest) := by
  simp [numIncomplete]

/-- Lengths hidden in the first invariant clause. -/
theorem schedInv_length (N K : Nat) (s : SchedState) (h : SchedInv N K s) :
    s.out.length + s.inflight.length = s.next := by
  have := congrArg List.length h.1
  simpa using this

theorem doneCount_le (N K : Nat) (s : SchedState) (h : SchedInv N K s) :
    doneCount s ≤ N := by
  have h1 := schedInv_length N K s h
  have h2 := countDone_le_length s.inflight
  have h3 := h.2.1
  simp only [doneCount]
  omega

/-- When every submitted download has been yielded, the machine is in its
terminal state. -/
theorem terminal_of_done (N K : Nat) (s : SchedState) (hK : 1 ≤ K)
    (h : SchedInv N K s) (hd : doneCount s = N) :
    s.inflight = [] ∧ s.next = N ∧ s.out = List.range N := by
  obtain ⟨h1, h2, h3, h4, h5⟩ := h
  have hlen := schedInv_length N K s ⟨h1, h2, h3, h4, h5⟩
  have hcd := countDone_le_length s.inflight
  have hsum := countDone_add_numIncomplete s.inflight
  have hni : numIncomplete s.inflight = 0 := by
    simp only [doneCount] at hd
    omega
  have hempty : s.inflight = [] := by
    rcases hin : s.inflight with _ | ⟨⟨i, b⟩, rest⟩
    · rfl
    · have hb : b = false := h5 i b (by rw [hin]; rfl)
      subst hb
      have := numIncomplete_pos_of_head i rest
      rw [hin] at hni
      omega
  have hnext : s.next = N := by
    rcases h4 with h4 | h4
    · rw [hempty] at h4
      simp at h4
      omega
    · exact h4
  refine ⟨hempty, hnext, ?_⟩
  have := h1
  rw [hempty, hnext] at this
  simpa using this

/-- The terminal state is a fixed point of the scheduler step, up to the
fields we care about. -/
theorem schedStep_terminal (N K c : Nat) (s : SchedState)
    (hin : s.inflight = []) (hnext : s.next = N) :
    (schedStep N K c s).inflight = [] ∧ (schedStep N K c s).next = N ∧
      (schedStep N K c s).out = s.out := by
  simp [schedStep, completeOne, numIncomplete, drain, drainQ, fill, hin, hnext]

/-- One adversarial completion strictly advances the pipeline and keeps
the invariant, as long as some download is still unfinished. -/
theorem schedStep_good (N K c : Nat) (s : SchedState) (hK : 1 ≤ K)
    (h : SchedInv N K s) (hlt : doneCount s < N) :
    SchedInv N K (schedStep N K c s) ∧
      doneCount (schedStep N K c s) = doneCount s + 1 := by
  obtain ⟨h1, h2, h3, h4, h5⟩ := h
  have hlen := schedInv_length N K s ⟨h1, h2, h3, h4, h5⟩
  have hsum := countDone_add_numIncomplete s.inflight
  -- some in-flight download is incomplete
  have hm : 0 < numIncomplete s.inflight := by
    rcases Nat.eq_zero_or_pos (numIncomplete s.inflight) with h0 | h0
    · exfalso
      rcases h4 with h4 | h4
      · rcases hin : s.inflight with _ | ⟨⟨i, b⟩, rest⟩
        · rw [hin] at h4
          simp at h4
          omega
        · have hb : b = false := h5 i b (by rw [hin]; rfl)
          subst hb
          have := numIncomplete_pos_of_head i rest
          rw [hin] at h0
          omega
      · simp only [doneCount] at hlt
        omega
    · exact h0
  -- the completion step
  set s1 := completeOne c s with hs1
  have hmod : c % numIncomplete s.inflight < numIncomplete s.inflight :=
    Nat.mod_lt c hm
  have hs1fld : s1.inflight = markNth (c % numIncomplete s.inflight) s.inflight := by
    rw [hs1]
    simp only [completeOne]
    rw [if_neg (by omega)]
  have hs1next : s1.next = s.next := by
    rw [hs1]
    simp only [completeOne]
    split <;> rfl
  have hs1out : s1.out = s.out := by
    rw [hs1]
    simp only [completeOne]
    split <;> rfl
  have hcd1 : countDone s1.inflight = countDone s.inflight + 1 := by
    rw [hs1fld]
    exact countDone_markNth _ _ hmod
  have hmap1 : s1.inflight.map Prod.fst = s.inflight.map Prod.fst := by
    rw [hs1fld]
    exact markNth_map_fst _ _
  have hlen1 : s1.inflight.length = s.inflight.length := by
    rw [hs1fld]
    exact markNth_length _ _
  -- the drain step
  set s2 := drain s1 with hs2
  have hs2next : s2.next = s1.next := rfl
  have hs2fld : s2.inflight = (drainQ s1.inflight).2 := rfl
  have hs2out : s2.out = s1.out ++ (drainQ s1.inflight).1 := rfl
  have h1' : s2.out ++ s2.inflight.map Prod.fst = List.range s2.next := by
    rw [hs2out, hs2fld, hs2next, hs1next, hs1out, List.append_assoc,
      drainQ_map_fst, hmap1, h1]
  have h2' : s2.next ≤ N := by rw [hs2next, hs1next]; exact h2
  have h3' : s2.inflight.length ≤ K := by
    rw [hs2fld]
    exact le_trans (drainQ_length _) (by omega)
  have h5' : ∀ i b, s2.inflight.head? = some (i, b) → b = false := by
    intro i b hb
    exact drainQ_head _ i b (by rw [← hs2fld]; exact hb)
  have hdc2 : doneCount s2 = doneCount s + 1 := by
    have hq := drainQ_countDone s1.inflight
    simp only [doneCount, hs2out, hs2fld, List.length_append, hs1out]
    simp only [doneCount] at *
    omega
  -- the refill step
  have hf := fill_inv N K s2 h1' h2' h3' h5'
  constructor
  · exact hf.1
  · rw [show schedStep N K c s = fill N K s2 from rfl, hf.2, hdc2]

/-- The initial state satisfies the invariant with nothing finished. -/
theorem schedInit_good (N K : Nat) :
    SchedInv N K (schedInit N K) ∧ doneCount (schedInit N K) = 0 := by
  have hf := fill_inv N K { next := 0, inflight := [], out := [] }
    (by simp) (by simp) (by simp) (by simp)
  exact ⟨hf.1, by rw [show schedInit N K = fill N K _ from rfl, hf.2]; rfl⟩

/-- Any schedule long enough to finish every download drives the machine
to the fully-delivered state. -/
theorem schedRun_out_aux (N K : Nat) (hK : 1 ≤ K) :
    ∀ (cs : List Nat) (s : SchedState), SchedInv N K s →
      N ≤ doneCount s + cs.length →
      (cs.foldl (fun t c => schedStep N K c t) s).out = List.range N := by
  intro cs
  induction cs with
  | nil =>
    intro s h hlen
    have hle := doneCount_le N K s h
    have hd : doneCount s = N := by simpa using Nat.le_antisymm hle (by simpa using hlen)
    exact (terminal_of_done N K s hK h hd).2.2
  | cons c cs ih =>
    intro s h hlen
    rcases Nat.lt_or_ge (doneCount s) N with hlt | hge
    · have hstep := schedStep_good N K c s hK h hlt
      have := ih (schedStep N K c s) hstep.1 (by rw [hstep.2]; simp at hlen ⊢; omega)
      simpa using this
    · have hd : doneCount s = N := Nat.le_antisymm (doneCount_le N K s h) hge
      obtain ⟨hin, hnext, hout⟩ := terminal_of_done N K s hK h hd
      -- terminal states stay terminal under any further steps
      have hterm : ∀ (ds : List Nat) (t : SchedState),
          t.inflight = [] → t.next = N → t.out = List.range N →
          (ds.foldl (fun u d => schedStep N K d u) t).out = List.range N := by
        intro ds
        induction ds with
        | nil => intro t _ _ h3; simpa using h3
        | cons d ds ihd =>
          intro t ht1 ht2 ht3
          have hs := schedStep_terminal N K d t ht1 ht2
          simpa using ihd (schedStep N K d t) hs.1 hs.2.1 (by rw [hs.2.2]; exact ht3)
      simpa using hterm (c :: cs) s hin hnext hout

/-- C1: for every chapter count `N`, concurrency cap `1 ≤ K ≤ N`, and
adversarial completion order (any long-enough choice sequence), the
buffered pipeline of main.rs:141-149/174-196 yields exactly `N` results to
the packaging loop, in index order `0..N-1`. -/
theorem buffered_pipeline_delivers_in_index_order (N K : Nat)
    (choices : List Nat) (hK1 : 1 ≤ K) (hKN : K ≤ N)
    (hlen : N ≤ choices.length) :
    (schedRun N K choices).out = List.range N := by
  have hinit := schedInit_good N K
  exact schedRun_out_aux N K hK1 choices (schedInit N K) hinit.1
    (by rw [hinit.2]; simpa using hlen)

/-- Witness for C1 at `N = 3`, `K = 2` and an out-of-order completion
schedule. -/
theorem buffered_pipeline_delivers_in_index_order_witness :
    (schedRun 3 2 [1, 0, 0]).out = List.range 3 :=
  buffered_pipeline_delivers_in_index_order 3 2 [1, 0, 0] (by decide)
    (by decide) (by decide)

/-! ## Matcher infrastructure: the fuel is irrelevant once large enough -/

theorem mGo_fuel_agree :
    ∀ f₁ f₂ its (s : List Char) g cap, s.length + its.length < f₁ →
      s.length + its.length < f₂ → mGo f₁ its s g cap = mGo f₂ its s g cap := by
  intro f₁
  induction f₁ using Nat.strong_induction_on with
  | _ f₁ ih =>
    intro f₂ its s g cap h₁ h₂
    obtain ⟨a, rfl⟩ : ∃ a, f₁ = a + 1 := ⟨f₁ - 1, by omega⟩
    obtain ⟨b, rfl⟩ : ∃ b, f₂ = b + 1 := ⟨f₂ - 1, by omega⟩
    cases its with
    | nil => rfl
    | cons it rest =>
      cases it with
      | openG =>
        simp only [mGo]
        exact ih a (by omega) b rest s true cap (by simp at h₁ ⊢; omega)
          (by simp at h₂ ⊢; omega)
      | closeG =>
        simp only [mGo]
        exact ih a (by omega) b rest s false cap (by simp at h₁ ⊢; omega)
          (by simp at h₂ ⊢; omega)
      | lit l =>
        simp only [mGo]
        by_cases hp : l.isPrefixOf s = true
        · simp only [hp, if_true]
          refine ih a (by omega) b rest (s.drop l.length) g _ ?_ ?_
          · simp only [List.length_drop]
            simp at h₁
            omega
          · simp only [List.length_drop]
            simp at h₂
            omega
        · simp [hp]
      | dot da =>
        simp only [mGo]
        cases s with
        | nil => rfl
        | cons c s' =>
          by_cases hd : dotOk da c = true
          · simp only [hd, if_true]
            refine ih a (by omega) b rest s' g _ ?_ ?_
            · simp at h₁ ⊢; omega
            · simp at h₂ ⊢; omega
          · simp [hd]
      | plus lz da =>
        simp only [mGo]
        cases s with
        | nil => rfl
        | cons c s' =>
          by_cases hd : dotOk da c = true
          · simp only [hd, if_true]
            refine ih a (by omega) b (.star lz da :: rest) s' g _ ?_ ?_
            · simp at h₁ ⊢; omega
            · simp at h₂ ⊢; omega
          · simp [hd]
      | star lz da =>
        have hrest : mGo a rest s g cap = mGo b rest s g cap :=
          ih a (by omega) b rest s g cap (by simp at h₁ ⊢; omega)
            (by simp at h₂ ⊢; omega)
        cases s with
        | nil =>
          cases lz <;> simp only [mGo] <;> rw [hrest]
        | cons c s' =>
          have heat :
              (if dotOk da c then
                 mGo a (.star lz da :: rest) s' g (if g then c :: cap else cap)
               else none) =
              (if dotOk da c then
                 mGo b (.star lz da :: rest) s' g (if g then c :: cap else cap)
               else none) := by
            by_cases hd : dotOk da c = true
            · simp only [hd, if_true]
              refine ih a (by omega) b (.star lz da :: rest) s' g _ ?_ ?_
              · simp at h₁ ⊢; omega
              · simp at h₂ ⊢; omega
            · simp [hd]
          cases lz with
          | true =>
            simp only [mGo, if_true]
            rw [hrest, heat]
          | false =>
            simp only [mGo, Bool.false_eq_true, if_false]
            rw [hrest, heat]

/-- `mGo` at its canonical fuel. -/
def mGoF (its : List RItem) (s : List Char) (g : Bool) (cap : List Char) :
    Option (List Char × List Char) :=
  mGo (s.length + its.length + 1) its s g cap

theorem mGo_eq_mGoF (f : Nat) (its : List RItem) (s : List Char) (g : Bool)
    (cap : List Char) (h : s.length + its.length < f) :
    mGo f its s g cap = mGoF its s g cap :=
  mGo_fuel_agree f (s.length + its.length + 1) its s g cap h (by omega)

theorem mGoF_nil (s : List Char) (g : Bool) (cap : List Char) :
    mGoF [] s g cap = some (cap.reverse, s) := rfl

theorem mGoF_openG (rest : List RItem) (s : List Char) (g : Bool)
    (cap : List Char) : mGoF (.openG :: rest) s g cap = mGoF rest s true cap := by
  show mGo (s.length + rest.length + 1 + 1) _ s g cap = _
  simp only [mGo]
  exact mGo_eq_mGoF (s.length + rest.length + 1) rest s true cap (by omega)

theorem mGoF_closeG (rest : List RItem) (s : List Char) (g : Bool)
    (cap : List Char) : mGoF (.closeG :: rest) s g cap = mGoF rest s false cap := by
  show mGo (s.length + rest.length + 1 + 1) _ s g cap = _
  simp only [mGo]
  exact mGo_eq_mGoF (s.length + rest.length + 1) rest s false cap (by omega)

theorem mGoF_lit (l : List Char) (rest : List RItem) (s : List Char) (g : Bool)
    (cap : List Char) :
    mGoF (.lit l :: rest) s g cap =
      if l.isPrefixOf s then
        mGoF rest (s.drop l.length) g (if g then l.reverse ++ cap else cap)
      else none := by
  show mGo (s.length + rest.length + 1 + 1) _ s g cap = _
  simp only [mGo]
  by_cases hp : l.isPrefixOf s = true
  · simp only [hp, if_true]
    exact mGo_eq_mGoF (s.length + rest.length + 1) rest (s.drop l.length) g
      (if g then l.reverse ++ cap else cap)
      (by simp only [List.length_drop]; omega)
  · simp [hp]

theorem mGoF_dot_nil (da : Bool) (rest : List RItem) (g : Bool)
    (cap : List Char) : mGoF (.dot da :: rest) [] g cap = none := rfl

theorem mGoF_dot_cons (da : Bool) (rest : List RItem) (c : Char)
    (s' : List Char) (g : Bool) (cap : List Char) :
    mGoF (.dot da :: rest) (c :: s') g cap =
      if dotOk da c then mGoF rest s' g (if g then c :: cap else cap)
      else none := by
  show mGo ((c :: s').length + rest.length + 1 + 1) _ _ g cap = _
  simp only [mGo]
  by_cases hd : dotOk da c = true
  · simp only [hd, if_true]
    exact mGo_eq_mGoF ((c :: s').length + rest.length + 1) rest s' g
      (if g then c :: cap else cap) (by simp only [List.length_cons]; omega)
  · simp [hd]

theorem mGoF_plus_nil (lz da : Bool) (rest : List RItem) (g : Bool)
    (cap : List Char) : mGoF (.plus lz da :: rest) [] g cap = none := rfl

theorem mGoF_plus_cons (lz da : Bool) (rest : List RItem) (c : Char)
    (s' : List Char) (g : Bool) (cap : List Char) :
    mGoF (.plus lz da :: rest) (c :: s') g cap =
      if dotOk da c then
        mGoF (.star lz da :: rest) s' g (if g then c :: cap else cap)
      else none := by
  show mGo ((c :: s').length + rest.length + 1 + 1) _ _ g cap = _
  simp only [mGo]
  by_cases hd : dotOk da c = true
  · simp only [hd, if_true]
    exact mGo_eq_mGoF ((c :: s').length + rest.length + 1)
      (.star lz da :: rest) s' g (if g then c :: cap else cap)
      (by simp only [List.length_cons]; omega)
  · simp [hd]

theorem mGoF_star_lazy (da : Bool) (rest : List RItem) (s : List Char)
    (g : Bool) (cap : List Char) :
    mGoF (.star true da :: rest) s g cap =
      match mGoF rest s g cap with
      | some r => some r
      | none =>
        match s with
        | [] => none
        | c :: s' =>
          if dotOk da c then
            mGoF (.star true da :: rest) s' g (if g then c :: cap else cap)
          else none := by
  show mGo (s.length + rest.length + 1 + 1) _ s g cap = _
  simp only [mGo, if_true]
  rw [mGo_eq_mGoF (s.length + rest.length + 1) rest s g cap (by omega)]
  cases hm : mGoF rest s g cap with
  | some r => rfl
  | none =>
    cases s with
    | nil => rfl
    | cons c s' =>
      simp only []
      by_cases hd : dotOk da c = true
      · simp only [hd, if_true]
        exact mGo_eq_mGoF ((c :: s').length + rest.length + 1)
          (.star true da :: rest) s' g (if g then c :: cap else cap)
          (by simp only [List.length_cons]; omega)
      · simp [hd]

theorem mGoF_star_greedy_nil (da : Bool) (rest : List RItem) (g : Bool)
    (cap : List Char) :
    mGoF (.star false da :: rest) [] g cap = mGoF rest [] g cap := by
  show mGo (List.length [] + rest.length + 1 + 1) _ _ g cap = _
  simp only [mGo, Bool.false_eq_true, if_false]
  exact mGo_eq_mGoF (List.length ([] : List Char) + rest.length + 1) rest [] g cap
    (by simp)

theorem mGoF_star_greedy_cons (da : Bool) (rest : List RItem) (c : Char)
    (s' : List Char) (g : Bool) (cap : List Char) :
    mGoF (.star false da :: rest) (c :: s') g cap =
      match
        (if dotOk da c then
           mGoF (.star false da :: rest) s' g (if g then c :: cap else cap)
         else none) with
      | some r => some r
      | none => mGoF rest (c :: s') g cap := by
  show mGo ((c :: s').length + rest.length + 1 + 1) _ _ g cap = _
  have hf : (c :: s').length + rest.length + 1 = s'.length + rest.length + 2 := by
    simp only [List.length_cons]
    omega
  rw [hf]
  generalize hgen : s'.length + rest.length + 2 = f
  simp only [mGo, Bool.false_eq_true, if_false]
  have heat :
      (if dotOk da c then
         mGo f (.star false da :: rest) s' g (if g then c :: cap else cap)
       else none) =
      (if dotOk da c then
         mGoF (.star false da :: rest) s' g (if g then c :: cap else cap)
       else none) := by
    by_cases hd : dotOk da c = true
    · simp only [hd, if_true]
      exact mGo_eq_mGoF f (.star false da :: rest) s' g
        (if g then c :: cap else cap) (by simp only [List.length_cons]; omega)
    · simp [hd]
  rw [heat, mGo_eq_mGoF f rest (c :: s') g cap
    (by simp only [List.length_cons]; omega)]

/-- `mSearch` at its canonical fuel. -/
def regexSearch (its : List RItem) (s : List Char) :
    Option (List Char × List Char) :=
  mSearch (s.length + 1) its s

theorem regexSearch_eq (its : List RItem) (s : List Char) :
    regexSearch its s =
      match mGoF its s false [] with
      | some r => some r
      | none =>
        match s with
        | [] => none
        | _ :: s' => regexSearch its s' := by
  cases s <;> rfl

theorem capturesIter_fuel_agree :
    ∀ f₁ f₂ its (s : List Char), s.length < f₁ → s.length < f₂ →
      capturesIter f₁ its s = capturesIter f₂ its s := by
  intro f₁
  induction f₁ using Nat.strong_induction_on with
  | _ f₁ ih =>
    intro f₂ its s h₁ h₂
    obtain ⟨a, rfl⟩ : ∃ a, f₁ = a + 1 := ⟨f₁ - 1, by omega⟩
    obtain ⟨b, rfl⟩ : ∃ b, f₂ = b + 1 := ⟨f₂ - 1, by omega⟩
    simp only [capturesIter]
    cases hm : mSearch (s.length + 1) its s with
    | none => rfl
    | some r =>
      obtain ⟨cap, rest⟩ := r
      dsimp only
      by_cases hr : rest.length < s.length
      · rw [if_pos hr, if_pos hr, ih a (by omega) b its rest (by omega) (by omega)]
      · rw [if_neg hr, if_neg hr]

theorem regexCapturesIter_eq (its : List RItem) (s : List Char) :
    regexCapturesIter its s =
      match regexSearch its s with
      | none => []
      | some (cap, rest) =>
        cap :: (if rest.length < s.length then regexCapturesIter its rest
                else []) := by
  show capturesIter (s.length + 1) its s = _
  simp only [capturesIter, regexSearch]
  cases hm : mSearch (s.length + 1) its s with
  | none => rfl
  | some r =>
    obtain ⟨cap, rest⟩ := r
    dsimp only
    by_cases hr : rest.length < s.length
    · rw [if_pos hr, if_pos hr,
        capturesIter_fuel_agree s.length (rest.length + 1) its rest hr (by omega)]
      rfl
    · rw [if_neg hr, if_neg hr]

theorem regexCaptures_eq_search (its : List RItem) (s : List Char) :
    regexCaptures its s = (regexSearch its s).map Prod.fst := rfl

/-! ## Structure of the captured group -/

/-- A single-character literal item. -/
def litChar (c : Char) : RItem := .lit [c]

/-- Whatever a successful match captures extends the capture accumulated so
far. -/
theorem mGo_cap_extends :
    ∀ f its (s : List Char) g cap res rest,
      mGo f its s g cap = some (res, rest) → ∃ ext, res = cap.reverse ++ ext := by
  intro f
  induction f with
  | zero => intro its s g cap res rest h; simp [mGo] at h
  | succ a ih =>
    intro its s g cap res rest h
    cases its with
    | nil =>
      simp only [mGo, Option.some.injEq, Prod.mk.injEq] at h
      exact ⟨[], by rw [← h.1]; simp⟩
    | cons it rest' =>
      cases it with
      | openG => exact ih rest' s true cap res rest h
      | closeG => exact ih rest' s false cap res rest h
      | lit l =>
        simp only [mGo] at h
        by_cases hp : l.isPrefixOf s = true
        · rw [if_pos hp] at h
          obtain ⟨ext, hext⟩ := ih _ _ _ _ _ _ h
          cases g with
          | true =>
            simp only [if_true] at hext
            refine ⟨l ++ ext, ?_⟩
            rw [hext]
            simp
          | false =>
            simp only [Bool.false_eq_true, if_false] at hext
            exact ⟨ext, hext⟩
        · rw [if_neg hp] at h
          cases h
      | dot da =>
        cases s with
        | nil => simp [mGo] at h
        | cons c s' =>
          simp only [mGo] at h
          by_cases hd : dotOk da c = true
          · rw [if_pos hd] at h
            obtain ⟨ext, hext⟩ := ih _ _ _ _ _ _ h
            cases g with
            | true =>
              simp only [if_true] at hext
              refine ⟨c :: ext, ?_⟩
              rw [hext]
              simp
            | false =>
              simp only [Bool.false_eq_true, if_false] at hext
              exact ⟨ext, hext⟩
          · rw [if_neg hd] at h
            cases h
      | plus lz da =>
        cases s with
        | nil => simp [mGo] at h
        | cons c s' =>
          simp only [mGo] at h
          by_cases hd : dotOk da c = true
          · rw [if_pos hd] at h
            obtain ⟨ext, hext⟩ := ih _ _ _ _ _ _ h
            cases g with
            | true =>
              simp only [if_true] at hext
              refine ⟨c :: ext, ?_⟩
              rw [hext]
              simp
            | false =>
              simp only [Bool.false_eq_true, if_false] at hext
              exact ⟨ext, hext⟩
          · rw [if_neg hd] at h
            cases h
      | star lz da =>
        cases lz with
        | true =>
          simp only [mGo, if_true] at h
          cases hm : mGo a rest' s g cap with
          | some r =>
            obtain ⟨r1, r2⟩ := r
            rw [hm] at h
            dsimp only at h
            cases h
            exact ih _ _ _ _ _ _ hm
          | none =>
            rw [hm] at h
            dsimp only at h
            cases s with
            | nil => cases h
            | cons c s' =>
              dsimp only at h
              by_cases hd : dotOk da c = true
              · rw [if_pos hd] at h
                obtain ⟨ext, hext⟩ := ih _ _ _ _ _ _ h
                cases g with
                | true =>
                  simp only [if_true] at hext
                  refine ⟨c :: ext, ?_⟩
                  rw [hext]
                  simp
                | false =>
                  simp only [Bool.false_eq_true, if_false] at hext
                  exact ⟨ext, hext⟩
              · rw [if_neg hd] at h
                cases h
        | false =>
          simp only [mGo, Bool.false_eq_true, if_false] at h
          cases s with
          | nil =>
            dsimp only at h
            exact ih _ _ _ _ _ _ h
          | cons c s' =>
            dsimp only at h
            by_cases hd : dotOk da c = true
            · rw [if_pos hd] at h
              cases hm : mGo a (.star false da :: rest') s' g
                  (if g then c :: cap else cap) with
              | some r =>
                obtain ⟨r1, r2⟩ := r
                rw [hm] at h
                dsimp only at h
                cases h
                obtain ⟨ext, hext⟩ := ih _ _ _ _ _ _ hm
                cases g with
                | true =>
                  simp only [if_true] at hext
                  refine ⟨c :: ext, ?_⟩
                  rw [hext]
                  simp
                | false =>
                  simp only [Bool.false_eq_true, if_false] at hext
                  exact ⟨ext, hext⟩
              | none =>
                rw [hm] at h
                dsimp only at h
                exact ih _ _ _ _ _ _ h
            · rw [if_neg hd] at h
              exact ih _ _ _ _ _ _ h

/-- Inside the group, a run of single-character literals contributes itself
to the capture. -/
theorem litRun_cap :
    ∀ (cs : List Char) f its2 (s : List Char) cap res rest,
      mGo f (cs.map litChar ++ its2) s true cap = some (res, rest) →
      ∃ ext, res = cap.reverse ++ cs ++ ext := by
  intro cs
  induction cs with
  | nil =>
    intro f its2 s cap res rest h
    simp only [List.map_nil, List.nil_append] at h
    obtain ⟨ext, hext⟩ := mGo_cap_extends f its2 s true cap res rest h
    exact ⟨ext, by simpa using hext⟩
  | cons c cs' ih =>
    intro f its2 s cap res rest h
    cases f with
    | zero => simp [mGo] at h
    | succ a =>
      simp only [List.map_cons, List.cons_append, mGo, litChar] at h
      by_cases hp : List.isPrefixOf [c] s = true
      · rw [if_pos hp] at h
        simp only [if_true] at h
        obtain ⟨ext, hext⟩ := ih _ _ _ _ _ _ h
        refine ⟨ext, ?_⟩
        rw [hext]
        simp
      · rw [if_neg hp] at h
        cases h

/-- Items that do not open or close the capture group. -/
def GroupFree (its : List RItem) : Prop :=
  ∀ it ∈ its, it ≠ RItem.openG ∧ it ≠ RItem.closeG

instance (its : List RItem) : Decidable (GroupFree its) := by
  unfold GroupFree
  infer_instance

/-- Before the group opens (and with nothing captured), a successful match
of group-free items followed by `openG …` factors through a successful
match starting at the `openG`. -/
theorem mGo_reaches_openG :
    ∀ f pre G (s : List Char) r, GroupFree pre →
      mGo f (pre ++ .openG :: G) s false [] = some r →
      ∃ f' s', mGo f' (.openG :: G) s' false [] = some r := by
  intro f
  induction f with
  | zero => intro pre G s r _ h; simp [mGo] at h
  | succ a ih =>
    intro pre G s r hg h
    cases pre with
    | nil => exact ⟨a + 1, s, h⟩
    | cons it pre' =>
      have hg' : GroupFree pre' := fun x hx => hg x (List.mem_cons_of_mem _ hx)
      have hit := hg it (List.mem_cons_self it pre')
      cases it with
      | openG => exact absurd rfl hit.1
      | closeG => exact absurd rfl hit.2
      | lit l =>
        simp only [List.cons_append, mGo] at h
        by_cases hp : l.isPrefixOf s = true
        · rw [if_pos hp] at h
          simp only [Bool.false_eq_true, if_false] at h
          exact ih pre' G _ r hg' h
        · rw [if_neg hp] at h
          cases h
      | dot da =>
        cases s with
        | nil => simp [mGo] at h
        | cons c s' =>
          simp only [List.cons_append, mGo] at h
          by_cases hd : dotOk da c = true
          · rw [if_pos hd] at h
            simp only [Bool.false_eq_true, if_false] at h
            exact ih pre' G s' r hg' h
          · rw [if_neg hd] at h
            cases h
      | plus lz da =>
        cases s with
        | nil => simp [mGo] at h
        | cons c s' =>
          simp only [List.cons_append, mGo] at h
          by_cases hd : dotOk da c = true
          · rw [if_pos hd] at h
            simp only [Bool.false_eq_true, if_false] at h
            refine ih (.star lz da :: pre') G s' r ?_ h
            intro x hx
            rcases List.mem_cons.mp hx with hx | hx
            · subst hx; exact ⟨by simp, by simp⟩
            · exact hg' x hx
          · rw [if_neg hd] at h
            cases h
      | star lz da =>
        have hgstar : GroupFree (RItem.star lz da :: pre') := by
          intro x hx
          rcases List.mem_cons.mp hx with hx | hx
          · subst hx; exact ⟨by simp, by simp⟩
          · exact hg' x hx
        cases lz with
        | true =>
          simp only [List.cons_append, mGo, if_true, List.append_eq] at h
          cases hm : mGo a (pre' ++ .openG :: G) s false [] with
          | some r' =>
            rw [hm] at h
            dsimp only at h
            cases h
            exact ih pre' G s r hg' hm
          | none =>
            rw [hm] at h
            dsimp only at h
            cases s with
            | nil => cases h
            | cons c s' =>
              dsimp only at h
              by_cases hd : dotOk da c = true
              · rw [if_pos hd] at h
                simp only [Bool.false_eq_true, if_false] at h
                exact ih (.star true da :: pre') G s' r hgstar h
              · rw [if_neg hd] at h
                cases h
        | false =>
          simp only [List.cons_append, mGo, Bool.false_eq_true, if_false,
            List.append_eq] at h
          cases s with
          | nil =>
            dsimp only at h
            exact ih pre' G [] r hg' h
          | cons c s' =>
            dsimp only at h
            by_cases hd : dotOk da c = true
            · rw [if_pos hd] at h
              cases hm : mGo a (.star false da :: (pre' ++ .openG :: G)) s' false [] with
              | some r' =>
                rw [hm] at h
                dsimp only at h
                cases h
                exact ih (.star false da :: pre') G s' r hgstar hm
              | none =>
                rw [hm] at h
                dsimp only at h
                exact ih pre' G (c :: s') r hg' h
            · rw [if_neg hd] at h
              exact ih pre' G (c :: s') r hg' h

theorem mSearch_to_mGo :
    ∀ f its (s : List Char) r, mSearch f its s = some r →
      ∃ f' s', mGo f' its s' false [] = some r := by
  intro f
  induction f with
  | zero => intro its s r h; simp [mSearch] at h
  | succ a ih =>
    intro its s r h
    simp only [mSearch] at h
    cases hm : mGo (s.length + its.length + 1) its s false [] with
    | some r' =>
      rw [hm] at h
      dsimp only at h
      cases h
      exact ⟨_, s, hm⟩
    | none =>
      rw [hm] at h
      dsimp only at h
      cases s with
      | nil => cases h
      | cons c s' =>
        dsimp only at h
        exact ih its s' r h

theorem capturesIter_mem :
    ∀ f its (s : List Char) c, c ∈ capturesIter f its s →
      ∃ f' s' rest, mGo f' its s' false [] = some (c, rest) := by
  intro f
  induction f with
  | zero => intro its s c h; simp [capturesIter] at h
  | succ a ih =>
    intro its s c hc
    simp only [capturesIter] at hc
    cases hm : mSearch (s.length + 1) its s with
    | none => rw [hm] at hc; cases hc
    | some r =>
      obtain ⟨cap, rest⟩ := r
      rw [hm] at hc
      dsimp only at hc
      rcases List.mem_cons.mp hc with hc | hc
      · subst hc
        obtain ⟨f', s', hm'⟩ := mSearch_to_mGo _ its s _ hm
        exact ⟨f', s', rest, hm'⟩
      · by_cases hr : rest.length < s.length
        · rw [if_pos hr] at hc
          exact ih its rest c hc
        · rw [if_neg hr] at hc
          cases hc

theorem compileSite_literal (site : String) (h : SiteLiteralOk site) :
    compileSite site.toList = site.toList.map litChar := by
  unfold compileSite litChar
  refine List.map_congr_left ?_
  intro c hc
  have : c ∉ ('.' :: regexMetaNonDot) := h c hc
  rw [if_neg (by simp at this; exact this.1)]

/-- C6 (amended): when the site-identity base URL contains no regex
metacharacters, every URL in the extracted chapter-URL list has the site
as a string prefix.  The restriction is forced: the source splices the
site string into the pattern (`format!` at boxn.rs:59-60, main.rs:134), so
its characters are read as regex syntax, and a base URL containing `.`
already breaks the literal-prefix property (see the counterexample). -/
theorem download_urls_site_prefixed (site html u : String)
    (hsite : SiteLiteralOk site)
    (hu : u ∈ (extract_overview site html).download_urls) :
    site.toList <+: u.toList := by
  simp only [extract_overview, List.mem_reverse, List.mem_map] at hu
  obtain ⟨c, hc, hmk⟩ := hu
  simp only [regexCapturesIter] at hc
  obtain ⟨f', s', rest, hm⟩ := capturesIter_mem _ _ _ c hc
  have hshape : chapterUrlItems site.toList =
      [RItem.lit "<a".toList, RItem.plus true false,
       RItem.lit "href=\"".toList] ++
        RItem.openG :: (compileSite site.toList ++
          [RItem.plus true false, RItem.closeG, RItem.lit "\"".toList,
           RItem.star true false, RItem.lit ">".toList]) := rfl
  rw [hshape] at hm
  obtain ⟨f2, s2, hm2⟩ := mGo_reaches_openG f' _ _ s' _ (by decide) hm
  cases f2 with
  | zero => simp [mGo] at hm2
  | succ a =>
    simp only [mGo] at hm2
    rw [compileSite_literal site hsite] at hm2
    obtain ⟨ext, hext⟩ := litRun_cap site.toList a _ s2 [] c rest hm2
    have hu' : u.toList = c := by rw [← hmk]; rfl
    rw [hu', hext]
    simp only [List.reverse_nil, List.nil_append]
    exact List.prefix_append _ _

/-- C6 counterexample: with base URL `a.c/` (a dot, as every real site
identity has), the regex built from it matches `aXc/1`, which does not
have `a.c/` as a string prefix. -/
theorem download_urls_site_dot_cex :
    (extract_overview "a.c/" "<a href=\"aXc/1\">").download_urls = ["aXc/1"] ∧
      ¬ ("a.c/".toList <+: "aXc/1".toList) := by
  constructor
  · decide
  · decide

/-- Witness for the amended C6 at a metacharacter-free site. -/
theorem download_urls_site_prefixed_witness :
    "s/".toList <+: "s/1x".toList :=
  download_urls_site_prefixed "s/" "<a href=\"s/1x\">" "s/1x" (by decide)
    (by decide)

/-! ## Round trip: extraction from a rendered chapter-link list -/

/-- Render an index page listing the given chapter links, in order, as the
anchor markup the chapter-URL regex scans for. -/
def mkIndexHtml : List String → String
  | [] => ""
  | u :: rest => "<a href=\"" ++ u ++ "\">" ++ mkIndexHtml rest

/-- A chapter link in the regime the pattern is written for: it strictly
extends the base URL and contains no quote or newline. -/
def ChapterLinkOk (site u : String) : Prop :=
  site.toList <+: u.toList ∧ site.toList.length < u.toList.length ∧
    '"' ∉ u.toList ∧ '\n' ∉ u.toList

instance (site u : String) : Decidable (ChapterLinkOk site u) := by
  unfold ChapterLinkOk
  infer_instance


/-- Inside the group, the lazy `.+?` consumes a quote-free, newline-free
URL remainder up to the closing quote, and the pattern then finishes at
the tag's closing `>`. -/
theorem groupStar_consumes (rL : List Char) :
    ∀ (rest cap : List Char), '"' ∉ rL → '\n' ∉ rL →
      mGoF (.star true false :: .closeG :: .lit ['"'] :: .star true false ::
          .lit ['>'] :: []) (rL ++ '"' :: '>' :: rest) true cap
        = some (cap.reverse ++ rL, rest) := by
  induction rL with
  | nil =>
    intro rest cap _ _
    rw [mGoF_star_lazy]
    have hskip : mGoF (.closeG :: .lit ['"'] :: .star true false ::
        .lit ['>'] :: []) ([] ++ '"' :: '>' :: rest) true cap
        = some (cap.reverse, rest) := by
      rw [List.nil_append, mGoF_closeG, mGoF_lit,
        if_pos (by simp [List.isPrefixOf])]
      dsimp only [List.drop]
      simp only [Bool.false_eq_true, if_false]
      rw [mGoF_star_lazy]
      have hlast : mGoF [RItem.lit ['>']] ('>' :: rest) false cap
          = some (cap.reverse, rest) := by
        rw [mGoF_lit, if_pos (by simp [List.isPrefixOf])]
        rfl
      rw [hlast]
    rw [hskip]
    simp
  | cons d rL' ih =>
    intro rest cap hq hn
    have hd : d ≠ '"' := fun h => hq (by simp [h])
    have hdn : d ≠ '\n' := fun h => hn (by simp [h])
    have hq' : '"' ∉ rL' := fun h => hq (List.mem_cons_of_mem _ h)
    have hn' : '\n' ∉ rL' := fun h => hn (List.mem_cons_of_mem _ h)
    rw [mGoF_star_lazy]
    have hskip : mGoF (.closeG :: .lit ['"'] :: .star true false ::
        .lit ['>'] :: []) ((d :: rL') ++ '"' :: '>' :: rest) true cap
        = none := by
      rw [List.cons_append, mGoF_closeG, mGoF_lit, if_neg]
      simp only [List.isPrefixOf, Bool.and_eq_true, beq_iff_eq]
      intro hcon
      exact hd hcon.1.symm
    rw [hskip]
    dsimp only
    rw [List.cons_append]
    dsimp only
    rw [if_pos (by simp [dotOk, hdn])]
    simp only [if_true]
    rw [ih rest (d :: cap) hq' hn']
    simp

/-- Entering the group remainder through the lazy `.+?`. -/
theorem groupPlus_consumes (rL rest cap : List Char) (hne : rL ≠ [])
    (hq : '"' ∉ rL) (hn : '\n' ∉ rL) :
    mGoF (.plus true false :: .closeG :: .lit ['"'] :: .star true false ::
        .lit ['>'] :: []) (rL ++ '"' :: '>' :: rest) true cap
      = some (cap.reverse ++ rL, rest) := by
  cases rL with
  | nil => exact absurd rfl hne
  | cons c rL' =>
    have hc : c ≠ '\n' := fun h => hn (by simp [h])
    have hq' : '"' ∉ rL' := fun h => hq (List.mem_cons_of_mem _ h)
    have hn' : '\n' ∉ rL' := fun h => hn (List.mem_cons_of_mem _ h)
    rw [List.cons_append, mGoF_plus_cons, if_pos (by simp [dotOk, hc])]
    simp only [if_true]
    rw [groupStar_consumes rL' rest (c :: cap) hq' hn']
    simp

/-- Matching the compiled site items consumes the site prefix of the input
and captures it verbatim, whatever the continuation: each literal captures
its own character, and each dot compiled from `.` captures the input
character, which here is the site's own. -/
theorem siteConsume (siteL : List Char) :
    ∀ (its : List RItem) (tail cap : List Char), '\n' ∉ siteL →
      mGoF (compileSite siteL ++ its) (siteL ++ tail) true cap
        = mGoF its tail true (siteL.reverse ++ cap) := by
  induction siteL with
  | nil => intro its tail cap _; simp [compileSite]
  | cons c siteL' ih =>
    intro its tail cap hn
    have hc : c ≠ '\n' := fun h => hn (by simp [h])
    have hn' : '\n' ∉ siteL' := fun h => hn (List.mem_cons_of_mem _ h)
    by_cases hdot : c = '.'
    · have hcs : compileSite (c :: siteL') = .dot false :: compileSite siteL' := by
        simp [compileSite, hdot]
      rw [hcs, List.cons_append, List.cons_append, mGoF_dot_cons,
        if_pos (by simp [dotOk, hc])]
      simp only [if_true]
      rw [ih its tail (c :: cap) hn']
      simp
    · have hcs : compileSite (c :: siteL') = .lit [c] :: compileSite siteL' := by
        simp [compileSite, hdot]
      rw [hcs, List.cons_append, List.cons_append, mGoF_lit,
        if_pos (by simp [List.isPrefixOf])]
      dsimp only [List.drop]
      simp only [if_true, List.reverse_singleton, List.singleton_append]
      rw [ih its tail (c :: cap) hn']
      simp

/-- The chapter-URL pattern matches one rendered anchor exactly, capturing
the full URL and ending right after the anchor. -/
theorem anchor_match (siteL rL rest : List Char) (hne : rL ≠ [])
    (hq : '"' ∉ siteL ++ rL) (hn : '\n' ∉ siteL ++ rL) :
    mGoF (chapterUrlItems siteL)
      ('<' :: 'a' :: ' ' :: 'h' :: 'r' :: 'e' :: 'f' :: '=' :: '"' ::
        (siteL ++ (rL ++ '"' :: '>' :: rest))) false []
      = some (siteL ++ rL, rest) := by
  have hqr : '"' ∉ rL := fun h => hq (List.mem_append_right _ h)
  have hnr : '\n' ∉ rL := fun h => hn (List.mem_append_right _ h)
  have hns : '\n' ∉ siteL := fun h => hn (List.mem_append_left _ h)
  have hshape : chapterUrlItems siteL =
      .lit ['<', 'a'] :: .plus true false ::
        (.lit ['h', 'r', 'e', 'f', '=', '"'] :: .openG ::
          (compileSite siteL ++
            (.plus true false :: .closeG :: .lit ['"'] :: .star true false ::
              .lit ['>'] :: []))) := rfl
  have hskip : mGoF (.lit ['h', 'r', 'e', 'f', '=', '"'] :: .openG ::
      (compileSite siteL ++
        (.plus true false :: .closeG :: .lit ['"'] :: .star true false ::
          .lit ['>'] :: [])))
      ('h' :: 'r' :: 'e' :: 'f' :: '=' :: '"' ::
        (siteL ++ (rL ++ '"' :: '>' :: rest))) false []
      = some (siteL ++ rL, rest) := by
    rw [mGoF_lit, if_pos (by simp [List.isPrefixOf])]
    dsimp only [List.drop]
    simp only [Bool.false_eq_true, if_false]
    rw [mGoF_openG, siteConsume siteL _ (rL ++ '"' :: '>' :: rest) [] hns,
      List.append_nil, groupPlus_consumes rL rest siteL.reverse hne hqr hnr]
    simp
  rw [hshape, mGoF_lit, if_pos (by simp [List.isPrefixOf])]
  dsimp only [List.drop]
  simp only [Bool.false_eq_true, if_false]
  rw [mGoF_plus_cons, if_pos (by decide)]
  simp only [Bool.false_eq_true, if_false]
  rw [mGoF_star_lazy, hskip]

theorem mkIndexHtml_toList (u : String) (rest : List String) :
    (mkIndexHtml (u :: rest)).toList =
      '<' :: 'a' :: ' ' :: 'h' :: 'r' :: 'e' :: 'f' :: '=' :: '"' ::
        (u.toList ++ ('"' :: '>' :: (mkIndexHtml rest).toList)) := by
  simp only [mkIndexHtml, String.toList, String.data_append, List.append_assoc]
  rfl

/-- The scan collects the rendered links in the order they appear in the
markup. -/
theorem iter_anchors (site : String) :
    ∀ urls : List String, (∀ u ∈ urls, ChapterLinkOk site u) →
      regexCapturesIter (chapterUrlItems site.toList) (mkIndexHtml urls).toList
        = urls.map String.toList := by
  intro urls
  induction urls with
  | nil => intro _; rfl
  | cons u urls' ih =>
    intro hurls
    obtain ⟨⟨t, ht⟩, hlen, hq, hn⟩ := hurls u (List.mem_cons_self u urls')
    have htne : t ≠ [] := by
      intro h
      rw [h, List.append_nil] at ht
      rw [← ht] at hlen
      omega
    have hq' : '"' ∉ site.toList ++ t := by rw [ht]; exact hq
    have hn' : '\n' ∉ site.toList ++ t := by rw [ht]; exact hn
    have hrest := ih (fun v hv => hurls v (List.mem_cons_of_mem _ hv))
    have hmatch : mGoF (chapterUrlItems site.toList)
        (mkIndexHtml (u :: urls')).toList false []
        = some (u.toList, (mkIndexHtml urls').toList) := by
      rw [mkIndexHtml_toList, ← ht, List.append_assoc]
      exact anchor_match site.toList t (mkIndexHtml urls').toList htne hq' hn'
    rw [regexCapturesIter_eq, regexSearch_eq, hmatch]
    dsimp only
    rw [if_pos (by rw [mkIndexHtml_toList]; simp; omega)]
    rw [hrest, List.map_cons]

/-- C2: for every index markup rendering a list of chapter links in the
order they appear (newest-first on the sites this targets), the extracted
`download_urls` is the reverse of that appearance order — boxn.rs:61-66
collects captures in document order and then reverses.  `SiteModeled`
restricts the base URL to strings whose only regex metacharacter is `.`,
where our embedding of the interpolated pattern is faithful. -/
theorem extract_overview_reverses_markup_order (site : String)
    (urls : List String) (hsite : SiteModeled site)
    (hurls : ∀ u ∈ urls, ChapterLinkOk site u) :
    (extract_overview site (mkIndexHtml urls)).download_urls = urls.reverse := by
  show ((regexCapturesIter (chapterUrlItems site.toList)
      (mkIndexHtml urls).toList).map String.mk).reverse = urls.reverse
  rw [iter_anchors site urls hurls, List.map_map]
  congr 1
  have hid : String.mk ∘ String.toList = id := funext fun u => rfl
  rw [hid, List.map_id]

/-- Witness for C2 with two links listed newest-first. -/
theorem extract_overview_reverses_markup_order_witness :
    (extract_overview "s/" (mkIndexHtml ["s/2x", "s/1x"])).download_urls
      = ["s/1x", "s/2x"] :=
  extract_overview_reverses_markup_order "s/" ["s/2x", "s/1x"] (by decide)
    (by decide)

/-! ## Fallback literals, argument normalization, and error behaviour -/

/-- C8: the two fields fall back independently — whenever the breadcrumb
title pattern finds nothing the title is the literal `no_title`, and
whenever the author-content pattern finds nothing the author is the
literal `no_author`, each regardless of whether the other region is
present.  `extract_overview` is a total function — a missing element
never aborts the run (boxn.rs:44-53; main.rs:122-129 does the same with
the `box2epub` literal). -/
theorem extract_overview_fallback (site html : String) :
    (regexCaptures homeTitleItems html.toList = none →
      (extract_overview site html).title = "no_title") ∧
    (regexCaptures homeAuthorItems html.toList = none →
      (extract_overview site html).author = "no_author") := by
  constructor
  · intro ht
    show String.mk (trimChars ((regexCaptures homeTitleItems
      html.toList).getD "no_title".toList)) = "no_title"
    rw [ht]
    rfl
  · intro ha
    show String.mk (trimChars ((regexCaptures homeAuthorItems
      html.toList).getD "no_author".toList)) = "no_author"
    rw [ha]
    rfl

/-- Witness for C8 on the one-absent boundaries: markup with a breadcrumb
title but no author block yields the author fallback, and markup with an
author block but no breadcrumb yields the title fallback. -/
theorem extract_overview_fallback_witness :
    (extract_overview "s/"
        "<ol class=\"breadcrumb\"><li><a>T</a></li></ol>").author
      = "no_author" ∧
    (extract_overview "s/"
        "<div class=\"author-content\"><a>A</a></div>").title
      = "no_title" :=
  ⟨(extract_overview_fallback "s/"
      "<ol class=\"breadcrumb\"><li><a>T</a></li></ol>").2 (by decide),
   (extract_overview_fallback "s/"
      "<div class=\"author-content\"><a>A</a></div>").1 (by decide)⟩

/-- C10: the trailing-slash normalization (main.rs:104-118) totally maps
every nonempty argument — unchanged when it already ends in `/`, with `/`
appended otherwise — and panics (the one-character `expect`) on the empty
argument instead of returning an error value. -/
theorem normalizeSite_spec :
    (∀ s : String, s ≠ "" →
      normalizeSite s =
        .ok (if s.toList.getLast? = some '/' then s else s ++ "/")) ∧
      normalizeSite ""
        = .error (.panicked "Argument should at least have one character") := by
  constructor
  · intro s hs
    obtain ⟨c, hc⟩ : ∃ c, s.toList.getLast? = some c := by
      cases hgl : s.toList.getLast? with
      | some c => exact ⟨c, rfl⟩
      | none =>
        exfalso
        apply hs
        have hnil : s.toList = [] := by
          cases hl : s.toList with
          | nil => rfl
          | cons a l =>
            rw [hl] at hgl
            simp [List.getLast?] at hgl
        exact String.ext hnil
    unfold normalizeSite
    rw [hc]
    dsimp only
    by_cases hcc : c = '/'
    · simp [hcc]
    · simp [hcc]
  · rfl

/-- Witness for C10 at a nonempty argument without a trailing slash. -/
theorem normalizeSite_spec_witness : normalizeSite "a" = .ok "a/" := by
  have h := normalizeSite_spec.1 "a" (by decide)
  simpa using h

/-- A chapter whose processing fails at some position fails at every
position, and its presence anywhere in the list aborts the collection
loop. -/
theorem processChaptersFrom_err (env : Env) :
    ∀ (urls : List String) (i : Nat) u, u ∈ urls →
      (∀ j : Nat, ∃ e, processChapter env j (env.chapterText u) = .error e) →
      ∃ e, processChaptersFrom env i urls = .error e := by
  intro urls
  induction urls with
  | nil => intro i u hu _; cases hu
  | cons v urls' ih =>
    intro i u hu hf
    rcases List.mem_cons.mp hu with rfl | hu'
    · obtain ⟨e, he⟩ := hf i
      exact ⟨e, by simp [processChaptersFrom, he]⟩
    · cases hv : processChapter env i (env.chapterText v) with
      | error e => exact ⟨e, by simp [processChaptersFrom, hv]⟩
      | ok c =>
        obtain ⟨e, he⟩ := ih (i + 1) u hu' hf
        exact ⟨e, by simp [processChaptersFrom, hv, he]⟩

/-- C5 (amended): `extract_chapter` fails with the missing-title error
(the `No <title> found` panic) when no title element exists, and with the
missing-content error (`No chapter content found`) when a title exists but
no `div.text-left` region does; and such a failure aborts the entire
collection loop — in the source the `expect` panic kills the whole run,
not just that chapter. -/
theorem extract_chapter_failure_modes :
    (∀ doc : List Node, selectFirst .title doc = none →
      extract_chapter doc = .error .missingTitle) ∧
    (∀ (doc : List Node) t, selectFirst .title doc = some t →
      selectFirst .textLeftDiv doc = none →
      extract_chapter doc = .error .missingContent) ∧
    (∀ (env : Env) (i : Nat) (urls : List String) u h,
      u ∈ urls → env.chapterText u = .ok h →
      selectFirst .title (env.parseDoc h) = none →
      ∃ e, processChaptersFrom env i urls = .error e) := by
  refine ⟨?_, ?_, ?_⟩
  · intro doc hsel
    unfold extract_chapter
    rw [hsel]
  · intro doc t hsel hcon
    unfold extract_chapter
    rw [hsel, hcon]
  · intro env i urls u h hu hok hsel
    refine processChaptersFrom_err env urls i u hu (fun j => ?_)
    refine ⟨.panicked "No <title> found", ?_⟩
    have hex : extract_chapter (env.parseDoc h) = .error .missingTitle := by
      unfold extract_chapter
      rw [hsel]
    simp [processChapter, hok, hex]

/-- Witness for the amended C5: both failure modes at concrete parsed
documents. -/
theorem extract_chapter_failure_modes_witness :
    extract_chapter [] = .error .missingTitle ∧
      extract_chapter [Node.elem "title" [] []] = .error .missingContent :=
  ⟨extract_chapter_failure_modes.1 [] rfl,
   extract_chapter_failure_modes.2.1 [Node.elem "title" [] []]
     (Node.elem "title" [] []) rfl rfl⟩

/-- A run in which the middle chapter's page has no title element: the
whole run dies with the title panic; the packaging stage is never
reached. -/
def envC5 : Env :=
  { args := ["prog", "s/"]
    homeText := .ok "<a href=\"s/1x\"><a href=\"s/2x\"><a href=\"s/3x\">"
    chapterText := fun u => .ok (if u = "s/2x" then "bad" else "good")
    parseDoc := fun h =>
      if h = "good" then
        [Node.elem "title" [] [Node.text "T"],
         Node.elem "div" [("class", "text-left")] [Node.text "B"]]
      else []
    coverResp := .error ()
    prettier := id }

/-- C5 counterexample: a missing title in one chapter aborts the whole
run (no document at all), refuting "fatal only for that single
chapter". -/
theorem extract_chapter_failure_aborts_run_cex :
    runMain envC5 = .error (.panicked "No <title> found") := rfl

/-- C3 (amended): a network failure fetching one chapter produces no
failure marker — the collection loop unwraps the fetch result and panics,
aborting the run, so the remaining chapters are never delivered
(main.rs:177). -/
theorem chapter_network_failure_aborts (env : Env) (urls : List String)
    (u : String) (i : Nat) (hu : u ∈ urls)
    (hf : env.chapterText u = .error ()) :
    ∃ e, processChaptersFrom env i urls = .error e := by
  refine processChaptersFrom_err env urls i u hu (fun j => ?_)
  exact ⟨.panicked "called Result::unwrap() on an Err value",
    by simp [processChapter, hf]⟩

/-- A run whose middle chapter download fails. -/
def envC3 : Env :=
  { args := ["prog", "s/"]
    homeText := .ok "<a href=\"s/1x\"><a href=\"s/2x\"><a href=\"s/3x\">"
    chapterText := fun u => if u = "s/2x" then .error () else .ok "good"
    parseDoc := fun _ =>
      [Node.elem "title" [] [Node.text "T"],
       Node.elem "div" [("class", "text-left")] [Node.text "B"]]
    coverResp := .error ()
    prettier := id }

/-- C3 counterexample: with one failing download among three, the run
panics instead of recording a failure marker and completing the
siblings. -/
theorem chapter_network_failure_aborts_cex :
    runMain envC3 = .error (.panicked "called Result::unwrap() on an Err value") :=
  rfl

/-- Witness for the amended C3. -/
theorem chapter_network_failure_aborts_witness :
    ∃ e, processChaptersFrom envC3 0 ["s/3x", "s/2x", "s/1x"] = .error e :=
  chapter_network_failure_aborts envC3 ["s/3x", "s/2x", "s/1x"] "s/2x" 0
    (by decide) rfl

/-- C4 (amended): an index page yielding zero chapter URLs does not abort
the run — there is no FatalSetupError in the code.  Provided the setup
steps succeed (and, here, no cover image is advertised), `main` runs to
completion and writes a packaged document with zero chapters. -/
theorem zero_chapter_urls_still_writes (env : Env) (site homeHtml : String)
    (hs : getSite env.args = .ok site)
    (hh : env.homeText = .ok homeHtml)
    (hc : regexCapturesIter (chapterUrlItems site.toList) homeHtml.toList = [])
    (hi : regexCaptures homeImageItems homeHtml.toList = none) :
    ∃ ep logs, runMain env = .ok (ep, logs) ∧ ep.contents = [] := by
  simp only [runMain, hs, hh, hi, hc, Option.map_none', List.map_nil,
    List.reverse_nil, buildCover, processChaptersFrom]
  exact ⟨_, _, rfl, rfl⟩

/-- A run whose index page contains no chapter link at all. -/
def envC4 : Env :=
  { args := ["prog", "s/"]
    homeText := .ok "hello"
    chapterText := fun _ => .error ()
    parseDoc := fun _ => []
    coverResp := .error ()
    prettier := id }

/-- C4 counterexample: with zero chapter URLs the run returns successfully
and writes a zero-chapter document, instead of aborting with a fatal
setup error. -/
theorem zero_chapter_urls_cex :
    runMain envC4 =
      .ok ({ metadata := [("author", "box2epub"), ("title", "box2epub")]
             cover := none
             hasInlineToc := true
             contents := [] }, []) := rfl

/-- Witness for the amended C4. -/
theorem zero_chapter_urls_still_writes_witness :
    ∃ ep logs, runMain envC4 = .ok (ep, logs) ∧ ep.contents = [] :=
  zero_chapter_urls_still_writes envC4 "s/" "hello" rfl rfl (by decide)
    (by decide)

/-- C7 (amended): a failed cover-image fetch is fatal: the error
propagates through the question-mark operator at main.rs:155 and the run
aborts with no document, before any chapter is processed. -/
theorem cover_fetch_failure_aborts (env : Env) (site homeHtml : String)
    (c : List Char)
    (hs : getSite env.args = .ok site)
    (hh : env.homeText = .ok homeHtml)
    (hi : regexCaptures homeImageItems homeHtml.toList = some c)
    (hcov : env.coverResp = .error ()) :
    runMain env = .error .propagated := by
  simp only [runMain, hs, hh, hi, Option.map_some', buildCover, hcov]

/-- A run advertising a cover image whose fetch fails. -/
def envC7 : Env :=
  { args := ["prog", "s/"]
    homeText := .ok "<div class=\"summary_image\"><img src=\"u\"></div>"
    chapterText := fun _ => .error ()
    parseDoc := fun _ => []
    coverResp := .error ()
    prettier := id }

/-- C7 counterexample: the cover fetch failure aborts the whole run — no
document is produced, no warning-and-continue. -/
theorem cover_fetch_failure_aborts_cex :
    runMain envC7 = .error .propagated := rfl

/-- Witness for the amended C7. -/
theorem cover_fetch_failure_aborts_witness :
    runMain envC7 = .error .propagated :=
  cover_fetch_failure_aborts envC7 "s/"
    "<div class=\"summary_image\"><img src=\"u\"></div>" "u".toList rfl rfl
    (by decide) rfl

/-- Only the two supported mimetypes ever produce an embedded cover. -/
theorem buildCover_pngjpeg (env : Env) (io : Option String) (nm m : String)
    (lg : List String)
    (h : buildCover env io = .ok (some (nm, m), lg)) :
    m = "image/png" ∨ m = "image/jpeg" := by
  unfold buildCover at h
  split at h
  · simp at h
  · split at h
    · cases h
    · split at h
      · simp at h
      · split at h
        · cases h
        · split at h
          · left
            simp only [Except.ok.injEq, Prod.mk.injEq, Option.some.injEq] at h
            rename_i hmt
            rw [← h.1.2]
            exact hmt
          · split at h
            · right
              simp only [Except.ok.injEq, Prod.mk.injEq, Option.some.injEq] at h
              rename_i hmt
              rw [← h.1.2]
              exact hmt
            · simp at h

/-- C9: an unsupported cover mimetype (e.g. `image/gif`) is a non-fatal,
logged skip — the run still succeeds and packages a coverless document —
and conversely a cover is embedded only for `image/png` or `image/jpeg`
(main.rs:160-169). -/
theorem unsupported_cover_mimetype_skipped :
    (∀ (env : Env) (site homeHtml : String) (c : List Char)
       (resp : CoverResp) (mt : String) (bs : List Nat)
       (chs : List EpubChapter),
      getSite env.args = .ok site →
      env.homeText = .ok homeHtml →
      regexCaptures homeImageItems homeHtml.toList = some c →
      env.coverResp = .ok resp →
      resp.contentType = some mt →
      resp.bodyBytes = .ok bs →
      mt ≠ "image/png" → mt ≠ "image/jpeg" →
      processChaptersFrom env 0
        (((regexCapturesIter (chapterUrlItems site.toList)
            homeHtml.toList).map String.mk).reverse) = .ok chs →
      ∃ ep logs, runMain env = .ok (ep, logs) ∧ ep.cover = none ∧
        ("Cover photo mimetype not supported: " ++ mt) ∈ logs) ∧
    (∀ (env : Env) (ep : Epub) (logs : List String) (nm mt : String),
      runMain env = .ok (ep, logs) → ep.cover = some (nm, mt) →
      mt = "image/png" ∨ mt = "image/jpeg") := by
  constructor
  · intro env site homeHtml c resp mt bs chs hs hh hi hcov hct hbs hpng hjpg hchs
    have hbc : buildCover env (some (String.mk (trimChars c))) =
        .ok (none, ["Cover photo mimetype not supported: " ++ mt]) := by
      simp [buildCover, hcov, hct, hbs, hpng, hjpg]
    simp only [runMain, hs, hh, hi, Option.map_some', hbc, hchs]
    exact ⟨_, _, rfl, rfl, by simp⟩
  · intro env ep logs nm mt hrun hcov
    unfold runMain at hrun
    cases hgs : getSite env.args with
    | error e => rw [hgs] at hrun; dsimp only at hrun; cases hrun
    | ok site =>
      rw [hgs] at hrun
      dsimp only at hrun
      cases hht : env.homeText with
      | error u => rw [hht] at hrun; dsimp only at hrun; cases hrun
      | ok homeHtml =>
        rw [hht] at hrun
        dsimp only at hrun
        cases hbc : buildCover env
            ((regexCaptures homeImageItems homeHtml.toList).map
              (fun c => String.mk (trimChars c))) with
        | error e => rw [hbc] at hrun; dsimp only at hrun; cases hrun
        | ok pr =>
          obtain ⟨cover, logs2⟩ := pr
          rw [hbc] at hrun
          dsimp only at hrun
          cases hpc : processChaptersFrom env 0
              ((regexCapturesIter (chapterUrlItems site.toList)
                homeHtml.toList).map String.mk).reverse with
          | error e => rw [hpc] at hrun; dsimp only at hrun; cases hrun
          | ok chs =>
            rw [hpc] at hrun
            dsimp only at hrun
            injection hrun with hpair
            have hep := congrArg Prod.fst hpair
            have hcov2 : cover = some (nm, mt) := by
              have hcc := congrArg Epub.cover hep
              dsimp only at hcc
              rw [hcc, hcov]
            rw [hcov2] at hbc
            exact buildCover_pngjpeg env _ nm mt logs2 hbc

/-- A run with a GIF cover and no chapters. -/
def envC9 : Env :=
  { args := ["prog", "s/"]
    homeText := .ok "<div class=\"summary_image\"><img src=\"u\"></div>"
    chapterText := fun _ => .error ()
    parseDoc := fun _ => []
    coverResp := .ok { contentType := some "image/gif", bodyBytes := .ok [0] }
    prettier := id }

/-- Witness for C9: a GIF cover is skipped with the warning logged and the
document still produced. -/
theorem unsupported_cover_mimetype_skipped_witness :
    ∃ ep logs, runMain envC9 = .ok (ep, logs) ∧ ep.cover = none ∧
      ("Cover photo mimetype not supported: " ++ "image/gif") ∈ logs :=
  unsupported_cover_mimetype_skipped.1 envC9 "s/"
    "<div class=\"summary_image\"><img src=\"u\"></div>" "u".toList
    { contentType := some "image/gif", bodyBytes := .ok [0] } "image/gif" [0]
    [] rfl rfl (by decide) rfl rfl rfl (by decide) (by decide) rfl
